import Mathlib

/-!
Verification of wchargin/rust-tensorboard-writer.

A shallow embedding of the core of the `tensorboard-writer` Rust crate:
the masked-CRC checksum, the TFRecord framing layer, the histogram
bucketizer of `SummaryBuilder::histogram`, the text-tensor builder
`SummaryBuilder::text_ndarray`, and the clock handling of
`Writer::write_summary`.

Modelling conventions:
* Bytes are natural numbers; byte buffers are `List Nat` whose elements
  produced by the code are always `< 256`.
* Machine integers (`u32`, `u64`, `i64`) are `Nat`/`Int` with explicit
  `% 2 ^ w` reductions where the Rust code wraps.
* Finite `f64` values are modelled as exact rationals (`ℚ`); the
  histogram claims over finite samples are about the exact-arithmetic
  behaviour of the algorithm.  Note that when the bucket width is zero
  the Rust code computes `0.0 / 0.0 = NaN`, `NaN.clamp(lo, hi) = NaN`,
  and `NaN as usize = 0`, so every sample lands in bucket 0; the
  rational embedding uses the `x / 0 = 0` convention of Lean and
  therefore also sends every such sample to bucket 0, matching the code.
* For the totality of the bucketizer on non-finite samples, a second
  model `EF64` extends the rationals with infinities and sign-carrying
  NaN, following IEEE-754 and the documented Rust semantics of
  `f64::total_cmp`, `f64::clamp` and saturating `as` casts.
* Rust panics are modelled as `Except.error`.
-/

namespace TBW

/-! ## Masked CRC

Modelled from the spec: the file `src/masked_crc.rs` is declared in
`lib.rs` and used by the record framer, but is not present in the
sources; §4.1 of the design document specifies the algorithm: standard
CRC-32C (Castagnoli polynomial, reflected, init `0xFFFFFFFF`, final xor
`0xFFFFFFFF`), then `((c >> 15) | (c << 17)) + 0xa282ead8` modulo
`2 ^ 32`. -/

/-- The reflected Castagnoli polynomial used by CRC-32C. -/
def crc32cPoly : Nat := 0x82F63B78

/-- One bit-iteration of the reflected CRC-32C shift register. -/
def crc32cStep1 (c : Nat) : Nat :=
  if c % 2 = 1 then (c / 2) ^^^ crc32cPoly else c / 2

/-- Eight bit-iterations: processes one input byte after the xor-in. -/
def crc32cStep8 (c : Nat) : Nat :=
  crc32cStep1 (crc32cStep1 (crc32cStep1 (crc32cStep1
    (crc32cStep1 (crc32cStep1 (crc32cStep1 (crc32cStep1 c)))))))

/-- Folding one byte of input into the CRC state. -/
def crc32cUpdate (c b : Nat) : Nat :=
  crc32cStep8 (c ^^^ b % 256)

/-- CRC-32C (Castagnoli) of a byte buffer. -/
def crc32c (data : List Nat) : Nat :=
  (data.foldl crc32cUpdate 0xFFFFFFFF) ^^^ 0xFFFFFFFF

/-- The additive masking constant of the TFRecord format. -/
def maskDelta : Nat := 0xa282ead8

/-- The masked checksum: a 32-bit rotation of the CRC-32C by 17 places
plus `maskDelta`, all modulo `2 ^ 32`. -/
def mask (data : List Nat) : Nat :=
  let c := crc32c data
  (((c >>> 15) ||| (c <<< 17 % 2 ^ 32)) + maskDelta) % 2 ^ 32

/-! ## TFRecord framing

Modelled from the spec: the file `src/tf_record.rs` is declared in
`lib.rs` and used by `writer.rs`, but is not present in the sources;
§4.2 of the design document specifies the byte layout and the read
contract. -/

/-- Little-endian encoding of `n` into `w` bytes. -/
def toLEBytes : Nat → Nat → List Nat
  | 0, _ => []
  | w + 1, n => n % 256 :: toLEBytes w (n / 256)

/-- Little-endian decoding of a byte list. -/
def fromLEBytes : List Nat → Nat
  | [] => 0
  | b :: rest => b + 256 * fromLEBytes rest

/-- Errors of the read path of the record framer (spec §4.2/§7). -/
inductive FramingError where
  | eof : FramingError
  | truncated : FramingError
  | badLengthCrc : FramingError
  | badDataCrc : FramingError
deriving DecidableEq, Repr

/-- Serializes one record: 8-byte little-endian length, 4-byte masked
CRC of those length bytes, the data verbatim, 4-byte masked CRC of the
data. -/
def recordWrite (data : List Nat) : List Nat :=
  let lenBytes := toLEBytes 8 data.length
  lenBytes ++ toLEBytes 4 (mask lenBytes) ++ data ++ toLEBytes 4 (mask data)

/-- Reads one record from the front of a byte stream, re-deriving and
checking both checksums; returns the data and the remaining stream. -/
def recordRead (stream : List Nat) : Except FramingError (List Nat × List Nat) :=
  if stream = [] then .error .eof
  else if stream.length < 8 then .error .truncated
  else
    let lenBytes := stream.take 8
    let rest := stream.drop 8
    let len := fromLEBytes lenBytes
    if rest.length < 4 then .error .truncated
    else if fromLEBytes (rest.take 4) ≠ mask lenBytes then .error .badLengthCrc
    else
      let rest2 := rest.drop 4
      if rest2.length < len then .error .truncated
      else
        let data := rest2.take len
        let rest3 := rest2.drop len
        if rest3.length < 4 then .error .truncated
        else if fromLEBytes (rest3.take 4) ≠ mask data then .error .badDataCrc
        else .ok (data, rest3.drop 4)

/-! ## Summary protobuf model and `SummaryBuilder` (`src/summary.rs`) -/

/-- A byte string (`prost::bytes::Bytes`). -/
abbrev Bytes := List Nat

/-- Model of `tensorboard.HistogramProto`, restricted to the fields that
`SummaryBuilder::histogram` sets; the other fields keep their protobuf
defaults.  `f64` fields are modelled as `ℚ`. -/
structure HistogramProto where
  min : ℚ := 0
  max : ℚ := 0
  bucket_limit : List ℚ := []
  bucket : List ℚ := []
deriving DecidableEq, Repr

/-- Model of `tensorboard.TensorShapeProto.Dim` (only the `size` field is set). -/
structure Dim where
  size : Int := 0
deriving DecidableEq, Repr

/-- Model of `tensorboard.TensorShapeProto`. -/
structure TensorShapeProto where
  dim : List Dim := []
deriving DecidableEq, Repr

/-- Model of `tensorboard.DataType`, restricted to the variants the builder
uses. -/
inductive DataType where
  | dtInvalid : DataType
  | dtString : DataType
deriving DecidableEq, Repr

/-- Model of `tensorboard.TensorProto`, restricted to the fields the builder
sets. -/
structure TensorProto where
  dtype : DataType := .dtInvalid
  tensor_shape : Option TensorShapeProto := none
  string_val : List Bytes := []
deriving DecidableEq, Repr

/-- Model of `tensorboard.SummaryMetadata.PluginData`. -/
structure PluginData where
  plugin_name : String := ""
  content : Bytes := []
deriving DecidableEq, Repr

/-- Model of `tensorboard.SummaryMetadata`. -/
structure SummaryMetadata where
  plugin_data : Option PluginData := none
deriving DecidableEq, Repr

/-- Model of `tensorboard.Summary.Value.value`, the one-of payload.  The `f32`
of `SimpleValue` is modelled as `ℚ`. -/
inductive InnerValue where
  | simpleValue : ℚ → InnerValue
  | histo : HistogramProto → InnerValue
  | tensor : TensorProto → InnerValue
deriving DecidableEq, Repr

/-- Model of `tensorboard.Summary.Value`. -/
structure SummaryValue where
  tag : String := ""
  metadata : Option SummaryMetadata := none
  value : Option InnerValue := none
deriving DecidableEq, Repr

/-- Model of `tensorboard.Summary`. -/
structure Summary where
  value : List SummaryValue := []
deriving DecidableEq, Repr

/-- Model of `SummaryBuilder`: a fluent accumulator around a `Summary`. -/
structure SummaryBuilder where
  summary : Summary := {}
deriving DecidableEq, Repr

/-- Rust `SummaryBuilder::new`. -/
def SummaryBuilder.new : SummaryBuilder := {}

/-- Rust `SummaryBuilder::build`. -/
def SummaryBuilder.build (b : SummaryBuilder) : Summary :=
  b.summary

/-- Rust `SummaryBuilder::value`: pushes one `Summary.Value`. -/
def SummaryBuilder.value (b : SummaryBuilder) (v : SummaryValue) : SummaryBuilder :=
  ⟨⟨b.summary.value ++ [v]⟩⟩

/-- Rust `SummaryBuilder::build_value`. -/
def SummaryBuilder.build_value (b : SummaryBuilder) (tag : String)
    (inner : InnerValue) (meta : Option SummaryMetadata) : SummaryBuilder :=
  b.value ⟨tag, meta, some inner⟩

/-- Rust `SummaryBuilder::scalar`. -/
def SummaryBuilder.scalar (b : SummaryBuilder) (tag : String) (scalar : ℚ) :
    SummaryBuilder :=
  b.build_value tag (.simpleValue scalar) none

/-- Rust `d as i64` for a `usize` value `d`: wraps modulo `2 ^ 64` into the
signed 64-bit range. -/
def toI64 (d : Nat) : Int :=
  ((d : Int) + 2 ^ 63) % 2 ^ 64 - 2 ^ 63

/-- Rust `i64::checked_mul`. -/
def i64CheckedMul (x y : Int) : Option Int :=
  if -(2 ^ 63) ≤ x * y ∧ x * y < 2 ^ 63 then some (x * y) else none

/-- The `try_fold(1i64, |x, y| x.checked_mul(y))` over
`shape.iter().map(|&d| d as i64)` in `text_ndarray_mono`. -/
def dimProduct (shape : List Nat) : Option Int :=
  (shape.map toI64).foldl (fun acc d => acc.bind fun x => i64CheckedMul x d) (some 1)

/-- Rust `SummaryBuilder::text_ndarray_mono`.  The `cfg!(debug)` flag is the
`debug` parameter, and the `panic!` calls of the shape check are
modelled as `Except.error` carrying the panic message. -/
def SummaryBuilder.text_ndarray_mono (debug : Bool) (b : SummaryBuilder) (tag : String)
    (string_val : List Bytes) (shape : List Nat) : Except String SummaryBuilder :=
  let check : Except String Unit :=
    if debug then
      match dimProduct shape with
      | some n =>
          if n = toI64 string_val.length then .ok ()
          else
            .error ("bad shape: dimension product is " ++ toString n
              ++ " but vector has length " ++ toString string_val.length)
      | none => .error "bad shape: dimension product overflowed"
    else .ok ()
  match check with
  | .error e => .error e
  | .ok () =>
      let tensor : TensorProto :=
        ⟨.dtString, some ⟨shape.map fun d => ⟨toI64 d⟩⟩, string_val⟩
      let meta : SummaryMetadata := ⟨some ⟨"text", []⟩⟩
      .ok (b.build_value tag (.tensor tensor) (some meta))

/-- Rust `SummaryBuilder::text_ndarray` (`copy_from_slice` is the identity in
this model). -/
def SummaryBuilder.text_ndarray (debug : Bool) (b : SummaryBuilder) (tag : String)
    (text : List Bytes) (shape : List Nat) : Except String SummaryBuilder :=
  SummaryBuilder.text_ndarray_mono debug b tag text shape

/-- Rust `SummaryBuilder::text`. -/
def SummaryBuilder.text (debug : Bool) (b : SummaryBuilder) (tag : String)
    (t : Bytes) : Except String SummaryBuilder :=
  SummaryBuilder.text_ndarray debug b tag [t] []

/-- Rust `values.iter().map(Into::into).min_by(f64::total_cmp).unwrap()` for
a non-empty list of finite samples: the least element. -/
def listMin : List ℚ → ℚ
  | [] => 0
  | x :: xs => xs.foldl min x

/-- Rust `max_by(f64::total_cmp)`: the greatest element. -/
def listMax : List ℚ → ℚ
  | [] => 0
  | x :: xs => xs.foldl max x

/-- The clamped bucket index of a sample `z`:
`f64::floor((z - min) / bucket_width).clamp(0.0, (bins - 1) as f64) as usize`.
When `bucket_width = 0` the guard of `histogramProto` forces `z = lo`,
the Rust code computes `(0.0 / 0.0) as usize = 0`, and the rational
convention `0 / 0 = 0` gives the same index 0. -/
def bucketIndex (lo width : ℚ) (bins : ℕ) (z : ℚ) : ℕ :=
  (max 0 (min ⌊(z - lo) / width⌋ ((bins : ℤ) - 1))).toNat

/-- The loop body of `SummaryBuilder::histogram`:
`histo.bucket[idx as usize] += 1.0`. -/
def bumpBucket (lo width : ℚ) (bins : ℕ) (acc : List ℚ) (z : ℚ) : List ℚ :=
  acc.set (bucketIndex lo width bins z) (acc.getD (bucketIndex lo width bins z) 0 + 1)

/-- The `HistogramProto` built by `SummaryBuilder::histogram` from
`bins` and `values` (the bucketizer). -/
def histogramProto (bins : ℕ) (values : List ℚ) : HistogramProto :=
  if values ≠ [] ∧ bins > 0 then
    let lo := listMin values
    let hi := listMax values
    let width := (hi - lo) / (bins : ℚ)
    ⟨lo, hi,
      (List.range bins).map fun i => lo + ((i + 1 : ℕ) : ℚ) * width,
      values.foldl (bumpBucket lo width bins) (List.replicate bins 0)⟩
  else {}

/-- Rust `SummaryBuilder::histogram`. -/
def SummaryBuilder.histogram (b : SummaryBuilder) (tag : String) (bins : ℕ)
    (values : List ℚ) : SummaryBuilder :=
  b.build_value tag (.histo (histogramProto bins values)) none

/-! ## Writer (`src/writer.rs`) -/

/-- Model of `tensorboard.SourceMetadata`. -/
structure SourceMetadata where
  writer : String := ""
deriving DecidableEq, Repr

/-- Model of `tensorboard.Event.what`, the one-of payload. -/
inductive What where
  | fileVersion : String → What
  | summary : Summary → What
deriving DecidableEq, Repr

/-- Model of `tensorboard.Event`, restricted to the fields the writer sets. -/
structure Event where
  wall_time : ℚ := 0
  step : Int := 0
  what : Option What := none
  source_metadata : Option SourceMetadata := none
deriving DecidableEq, Repr

/-- Writer-level errors: the `SystemTimeError` of
`duration_since(UNIX_EPOCH)` surfaced through `io::Error::other`. -/
inductive IoErr where
  | clockError : IoErr
deriving DecidableEq, Repr

/-- Model of `SystemTime`, modelled as signed seconds relative to `UNIX_EPOCH`. -/
abbrev SystemTime := ℚ

/-- Rust `time_f64` of `writer.rs`: `duration_since(UNIX_EPOCH)` fails
exactly when the time predates the epoch; otherwise `as_secs_f64()`
yields the non-negative seconds. -/
def time_f64 (time : SystemTime) : Except IoErr ℚ :=
  if time < 0 then .error .clockError else .ok time

/-- The bytes appended by `Writer::write_event`: the event serialized by
the external protobuf encoder `encode` (`prost`, a black box), framed as
one TFRecord. -/
def write_event (encode : Event → List Nat) (out : List Nat) (event : Event) :
    List Nat :=
  out ++ recordWrite (encode event)

/-- Rust `Writer::write_summary`: converts the wall time (propagating a clock
error), then wraps the summary in an `Event` and writes it. -/
def write_summary (encode : Event → List Nat) (out : List Nat)
    (wall_time : SystemTime) (step : Int) (summary : Summary) :
    Except IoErr (List Nat) :=
  match time_f64 wall_time with
  | .error e => .error e
  | .ok t =>
      .ok (write_event encode out ⟨t, step, some (.summary summary), none⟩)

/-! ## Extended `f64` model for special values

The histogram loop of `summary.rs` is also total on non-finite inputs.
To state that, `f64` is extended with infinities and sign-carrying NaN
(finite values stay exact rationals, as elsewhere in this file;
negative zero and NaN payloads are not distinguished).  All special
cases below follow IEEE-754 and the Rust documentation of
`f64::total_cmp`, `f64::clamp` and `as` casts; the only unspecified
point, the sign of a NaN produced by an invalid operation such as
`0.0 / 0.0` (here `true`), is irrelevant because `efloor`, `eclamp` and
`etoUsize` treat all NaNs alike.  Rust panics (the clamp assertion and
an out-of-range index) are modelled as `Except.error`. -/

/-- Extended `f64`: a signed NaN (`true` = sign bit set), the two
infinities, or an exact finite value. -/
inductive EF64 where
  | nan : Bool → EF64
  | ninf : EF64
  | pinf : EF64
  | fin : ℚ → EF64
deriving DecidableEq, Repr

/-- IEEE `<` on `f64`: false whenever an operand is NaN. -/
def elt : EF64 → EF64 → Bool
  | .nan _, _ => false
  | _, .nan _ => false
  | .ninf, .ninf => false
  | .ninf, _ => true
  | _, .ninf => false
  | .pinf, _ => false
  | .fin _, .pinf => true
  | .fin a, .fin b => decide (a < b)

/-- IEEE `<=` on `f64`: false whenever an operand is NaN. -/
def ele : EF64 → EF64 → Bool
  | .nan _, _ => false
  | _, .nan _ => false
  | .ninf, _ => true
  | _, .ninf => false
  | _, .pinf => true
  | .pinf, _ => false
  | .fin a, .fin b => decide (a ≤ b)

/-- Strict part of `f64::total_cmp`: the total order
`-NaN < -inf < finite < +inf < +NaN`. -/
def etotalLt : EF64 → EF64 → Bool
  | .nan true, .nan true => false
  | .nan true, _ => true
  | _, .nan true => false
  | .ninf, .ninf => false
  | .ninf, _ => true
  | _, .ninf => false
  | .fin a, .fin b => decide (a < b)
  | .fin _, _ => true
  | _, .fin _ => false
  | .pinf, .pinf => false
  | .pinf, .nan false => true
  | .nan false, _ => false

/-- Rust `Iterator::min_by(f64::total_cmp)` over a non-empty list (the
earlier element is kept on ties). -/
def listMinE : List EF64 → EF64
  | [] => .fin 0
  | x :: xs => xs.foldl (fun acc z => if etotalLt z acc then z else acc) x

/-- Rust `Iterator::max_by(f64::total_cmp)` over a non-empty list (the
later element is kept on ties). -/
def listMaxE : List EF64 → EF64
  | [] => .fin 0
  | x :: xs => xs.foldl (fun acc z => if etotalLt z acc then acc else z) x

/-- IEEE `f64` subtraction on special values, exact on finite values. -/
def esub : EF64 → EF64 → EF64
  | .nan s, _ => .nan s
  | _, .nan s => .nan s
  | .pinf, .pinf => .nan true
  | .pinf, _ => .pinf
  | .ninf, .ninf => .nan true
  | .ninf, _ => .ninf
  | .fin _, .pinf => .ninf
  | .fin _, .ninf => .pinf
  | .fin a, .fin b => .fin (a - b)

/-- IEEE `f64` addition on special values, exact on finite values. -/
def eadd : EF64 → EF64 → EF64
  | .nan s, _ => .nan s
  | _, .nan s => .nan s
  | .pinf, .ninf => .nan true
  | .pinf, _ => .pinf
  | .ninf, .pinf => .nan true
  | .ninf, _ => .ninf
  | .fin _, .pinf => .pinf
  | .fin _, .ninf => .ninf
  | .fin a, .fin b => .fin (a + b)

/-- IEEE `f64` multiplication on special values, exact on finite
values; `0 * inf` is NaN. -/
def emul : EF64 → EF64 → EF64
  | .nan s, _ => .nan s
  | _, .nan s => .nan s
  | .pinf, .pinf => .pinf
  | .pinf, .ninf => .ninf
  | .ninf, .pinf => .ninf
  | .ninf, .ninf => .pinf
  | .pinf, .fin b => if b = 0 then .nan true else if 0 < b then .pinf else .ninf
  | .ninf, .fin b => if b = 0 then .nan true else if 0 < b then .ninf else .pinf
  | .fin a, .pinf => if a = 0 then .nan true else if 0 < a then .pinf else .ninf
  | .fin a, .ninf => if a = 0 then .nan true else if 0 < a then .ninf else .pinf
  | .fin a, .fin b => .fin (a * b)

/-- IEEE `f64` division on special values, exact on finite values:
`0 / 0` and `inf / inf` are NaN, a nonzero finite value over zero is a
signed infinity, and a finite value over an infinity is zero. -/
def ediv : EF64 → EF64 → EF64
  | .nan s, _ => .nan s
  | _, .nan s => .nan s
  | .pinf, .pinf => .nan true
  | .pinf, .ninf => .nan true
  | .ninf, .pinf => .nan true
  | .ninf, .ninf => .nan true
  | .pinf, .fin b => if 0 ≤ b then .pinf else .ninf
  | .ninf, .fin b => if 0 ≤ b then .ninf else .pinf
  | .fin _, .pinf => .fin 0
  | .fin _, .ninf => .fin 0
  | .fin a, .fin b =>
      if b = 0 then
        if a = 0 then .nan true else if 0 < a then .pinf else .ninf
      else .fin (a / b)

/-- IEEE `f64::floor`: identity on NaN and on the infinities. -/
def efloor : EF64 → EF64
  | .nan s => .nan s
  | .ninf => .ninf
  | .pinf => .pinf
  | .fin a => .fin (⌊a⌋ : ℚ)

/-- Rust `f64::clamp`: asserts `min <= max` under the IEEE order
(panicking — an error here — when it fails or a bound is NaN), and
propagates a NaN input. -/
def eclamp (x lo hi : EF64) : Except String EF64 :=
  if ele lo hi then
    .ok (if elt x lo then lo else if elt hi x then hi else x)
  else .error "assertion failed: min <= max"

/-- Rust `as usize` on an `f64`: truncation toward zero, saturating at
the `usize` range, with NaN mapped to 0. -/
def etoUsize : EF64 → ℕ
  | .nan _ => 0
  | .ninf => 0
  | .pinf => 2 ^ 64 - 1
  | .fin a => (min (max 0 ⌊a⌋) (2 ^ 64 - 1)).toNat

/-- The bucket index of the histogram loop over extended `f64`:
`f64::floor((z - min) / bucket_width).clamp(0.0, (bins - 1) as f64) as usize`,
with the clamp assertion surfaced as an error. -/
def bucketIndexE (lo width : EF64) (bins : ℕ) (z : EF64) : Except String ℕ :=
  match eclamp (efloor (ediv (esub z lo) width)) (.fin 0) (.fin ((bins : ℚ) - 1)) with
  | .error e => .error e
  | .ok v => .ok (etoUsize v)

/-- The loop body `histo.bucket[idx as usize] += 1.0` over extended
`f64`, with the panic of an out-of-range index surfaced as an error. -/
def bumpBucketE (lo width : EF64) (bins : ℕ) (acc : List ℚ) (z : EF64) :
    Except String (List ℚ) :=
  match bucketIndexE lo width bins z with
  | .error e => .error e
  | .ok idx =>
      if idx < acc.length then .ok (acc.set idx (acc.getD idx 0 + 1))
      else .error "index out of bounds"

/-- Extended-`f64` variant of `HistogramProto`; the counts always stay
finite (they start at `0.0` and grow by `1.0`), so they remain `ℚ`. -/
structure HistogramProtoE where
  min : EF64 := .fin 0
  max : EF64 := .fin 0
  bucket_limit : List EF64 := []
  bucket : List ℚ := []
deriving DecidableEq, Repr

/-- The bucketizer of `SummaryBuilder::histogram` over extended `f64`
inputs (NaN and infinities allowed); any panic of the loop is surfaced
as an error. -/
def histogramProtoE (bins : ℕ) (values : List EF64) :
    Except String HistogramProtoE :=
  if values ≠ [] ∧ bins > 0 then
    let lo := listMinE values
    let hi := listMaxE values
    let width := ediv (esub hi lo) (.fin (bins : ℚ))
    let limits := (List.range bins).map fun i =>
      eadd lo (emul (.fin ((i + 1 : ℕ) : ℚ)) width)
    match values.foldl
        (fun (acc : Except String (List ℚ)) z =>
          acc.bind fun l => bumpBucketE lo width bins l z)
        (.ok (List.replicate bins 0)) with
    | .error e => .error e
    | .ok counts => .ok ⟨lo, hi, limits, counts⟩
  else .ok {}

/-! ## Lemmas: masked CRC and record framing -/

theorem crc32cStep1_lt (c : Nat) (h : c < 2 ^ 32) : crc32cStep1 c < 2 ^ 32 := by
  unfold crc32cStep1 crc32cPoly
  split
  · exact Nat.xor_lt_two_pow (by omega) (by norm_num)
  · omega

theorem crc32cStep8_lt (c : Nat) (h : c < 2 ^ 32) : crc32cStep8 c < 2 ^ 32 := by
  unfold crc32cStep8
  iterate 8 apply crc32cStep1_lt
  exact h

theorem crc32cUpdate_lt (c b : Nat) (h : c < 2 ^ 32) : crc32cUpdate c b < 2 ^ 32 := by
  unfold crc32cUpdate
  exact crc32cStep8_lt _ (Nat.xor_lt_two_pow h (by have := Nat.mod_lt b (y := 256) (by norm_num); omega))

theorem crc32c_lt (data : List Nat) : crc32c data < 2 ^ 32 := by
  unfold crc32c
  apply Nat.xor_lt_two_pow _ (by norm_num)
  have : ∀ (l : List Nat) (c : Nat), c < 2 ^ 32 → l.foldl crc32cUpdate c < 2 ^ 32 := by
    intro l
    induction l with
    | nil => intro c hc; simpa using hc
    | cons b t ih =>
        intro c hc
        simpa using ih _ (crc32cUpdate_lt c b hc)
  exact this data _ (by norm_num)

theorem mask_lt (data : List Nat) : mask data < 2 ^ 32 := by
  unfold mask
  exact Nat.mod_lt _ (by norm_num)

theorem length_toLEBytes (w n : Nat) : (toLEBytes w n).length = w := by
  induction w generalizing n with
  | zero => rfl
  | succ w ih => simp [toLEBytes, ih]

theorem fromLEBytes_toLEBytes (w n : Nat) :
    fromLEBytes (toLEBytes w n) = n % 256 ^ w := by
  induction w generalizing n with
  | zero => simp [toLEBytes, fromLEBytes, Nat.mod_one]
  | succ w ih =>
      simp only [toLEBytes, fromLEBytes, ih]
      rw [pow_succ', Nat.mod_mul]

/-- C1: round-trip identity of the record framer: writing any byte
buffer as a record and reading it back returns exactly that buffer (and
consumes the whole record). -/
theorem recordRead_recordWrite (d : List Nat) (h : d.length < 2 ^ 64) :
    recordRead (recordWrite d) = .ok (d, []) := by
  have h8 := length_toLEBytes 8 d.length
  have h4a := length_toLEBytes 4 (mask (toLEBytes 8 d.length))
  have h4b := length_toLEBytes 4 (mask d)
  have hfrom8 : fromLEBytes (toLEBytes 8 d.length) = d.length := by
    rw [fromLEBytes_toLEBytes]
    exact Nat.mod_eq_of_lt (lt_of_lt_of_eq h (by norm_num))
  have hfromA : fromLEBytes (toLEBytes 4 (mask (toLEBytes 8 d.length)))
      = mask (toLEBytes 8 d.length) := by
    rw [fromLEBytes_toLEBytes]
    exact Nat.mod_eq_of_lt (lt_of_lt_of_eq (mask_lt _) (by norm_num))
  have hfromB : fromLEBytes (toLEBytes 4 (mask d)) = mask d := by
    rw [fromLEBytes_toLEBytes]
    exact Nat.mod_eq_of_lt (lt_of_lt_of_eq (mask_lt _) (by norm_num))
  simp only [recordRead, recordWrite, List.append_assoc]
  rw [List.take_left' h8, List.drop_left' h8, List.take_left' h4a,
    List.drop_left' h4a, hfromA, hfrom8]
  rw [List.take_left' (rfl : d.length = d.length),
    List.drop_left' (rfl : d.length = d.length)]
  rw [List.take_of_length_le (le_of_eq h4b), hfromB,
    List.drop_of_length_le (le_of_eq h4b)]
  have hne : toLEBytes 8 d.length ++ (toLEBytes 4 (mask (toLEBytes 8 d.length))
      ++ (d ++ toLEBytes 4 (mask d))) ≠ [] := by
    intro hc
    have := congrArg List.length hc
    simp [h8] at this
  rw [if_neg hne]
  have hlen : ¬ (toLEBytes 8 d.length ++ (toLEBytes 4 (mask (toLEBytes 8 d.length))
      ++ (d ++ toLEBytes 4 (mask d)))).length < 8 := by
    simp [h8]
  rw [if_neg hlen]
  have hlenA : ¬ (toLEBytes 4 (mask (toLEBytes 8 d.length))
      ++ (d ++ toLEBytes 4 (mask d))).length < 4 := by
    simp [h4a]
  rw [if_neg hlenA]
  rw [if_neg (by simp)]
  have hlenD : ¬ (d ++ toLEBytes 4 (mask d)).length < d.length := by
    simp [h4b]
  rw [if_neg hlenD]
  rw [if_neg (by simp [h4b])]
  rw [if_neg (by simp)]

/-- Reducing modulo `2 ^ n` commutes with bitwise or. -/
theorem lor_mod_two_pow (x y n : Nat) :
    (x ||| y) % 2 ^ n = x % 2 ^ n ||| y % 2 ^ n := by
  apply Nat.eq_of_testBit_eq
  intro i
  simp [Nat.testBit_mod_two_pow, Nat.testBit_lor, Bool.and_or_distrib_left]

/-! ## Lemmas: histogram bucketizer -/

theorem bucketIndex_lt (lo width : ℚ) (bins : ℕ) (z : ℚ) (hb : 0 < bins) :
    bucketIndex lo width bins z < bins := by
  unfold bucketIndex
  omega

theorem sum_set_getD_add_one (l : List ℚ) (i : ℕ) (h : i < l.length) :
    (l.set i (l.getD i 0 + 1)).sum = l.sum + 1 := by
  induction l generalizing i with
  | nil => simp at h
  | cons x t ih =>
      cases i with
      | zero => simp [List.set, List.getD_cons_zero]; ring
      | succ j =>
          have hj : j < t.length := by simpa using h
          simp only [List.set, List.getD_cons_succ, List.sum_cons, ih j hj]
          ring

theorem length_foldl_bumpBucket (lo width : ℚ) (bins : ℕ) (values : List ℚ) :
    ∀ acc : List ℚ,
      (values.foldl (bumpBucket lo width bins) acc).length = acc.length := by
  induction values with
  | nil => intro acc; rfl
  | cons z t ih =>
      intro acc
      rw [List.foldl_cons, ih]
      simp [bumpBucket]

theorem sum_foldl_bumpBucket (lo width : ℚ) (bins : ℕ) (hb : 0 < bins)
    (values : List ℚ) :
    ∀ acc : List ℚ, acc.length = bins →
      (values.foldl (bumpBucket lo width bins) acc).sum
        = acc.sum + values.length := by
  induction values with
  | nil => intro acc _; simp
  | cons z t ih =>
      intro acc hl
      rw [List.foldl_cons,
        ih _ (by rw [bumpBucket, List.length_set, hl]),
        bumpBucket,
        sum_set_getD_add_one _ _ (by rw [hl]; exact bucketIndex_lt _ _ _ _ hb)]
      simp only [List.length_cons]
      push_cast
      ring

/-- C2: for every non-empty sample list and every positive bin count,
the bucket counts of the histogram built by `SummaryBuilder::histogram`
sum to exactly the number of input samples: each sample increments
exactly one of the `bins` clamped buckets by one. -/
theorem histogram_counts_every_sample (bins : ℕ) (values : List ℚ)
    (hne : values ≠ []) (hb : 0 < bins) :
    (histogramProto bins values).bucket.sum = (values.length : ℚ) ∧
      (histogramProto bins values).bucket.length = bins := by
  simp only [histogramProto, if_pos (And.intro hne hb)]
  constructor
  · rw [sum_foldl_bumpBucket _ _ _ hb _ _ (List.length_replicate _ _)]
    simp
  · rw [length_foldl_bumpBucket, List.length_replicate]

theorem histogram_counts_every_sample_witness :
    (histogramProto 2 [1, 2]).bucket.sum = (([1, 2] : List ℚ).length : ℚ) ∧
      (histogramProto 2 [1, 2]).bucket.length = 2 :=
  histogram_counts_every_sample 2 [1, 2] (by simp) (by decide)

/-- C5: with no samples, or with zero bins, the bucketizer returns the
default histogram: `min = max = 0` and empty `bucket_limit` and
`bucket`. -/
theorem histogram_degenerate_empty :
    (∀ bins : ℕ, histogramProto bins [] = ⟨0, 0, [], []⟩) ∧
      ∀ values : List ℚ, histogramProto 0 values = ⟨0, 0, [], []⟩ := by
  constructor
  · intro bins
    simp [histogramProto]
  · intro values
    simp [histogramProto]

theorem foldl_min_le_init (t : List ℚ) : ∀ a : ℚ, t.foldl min a ≤ a := by
  induction t with
  | nil => intro a; simp
  | cons x s ih =>
      intro a
      calc (x :: s).foldl min a = s.foldl min (min a x) := rfl
      _ ≤ min a x := ih _
      _ ≤ a := min_le_left _ _

theorem foldl_min_le_mem (t : List ℚ) : ∀ a z : ℚ, z ∈ t → t.foldl min a ≤ z := by
  induction t with
  | nil => intro a z hz; simp at hz
  | cons x s ih =>
      intro a z hz
      rcases List.mem_cons.mp hz with h | h
      · subst h
        calc (z :: s).foldl min a = s.foldl min (min a z) := rfl
        _ ≤ min a z := foldl_min_le_init _ _
        _ ≤ z := min_le_right _ _
      · exact ih _ _ h

theorem listMin_le_of_mem {z : ℚ} {values : List ℚ} (h : z ∈ values) :
    listMin values ≤ z := by
  cases values with
  | nil => simp at h
  | cons x s =>
      rcases List.mem_cons.mp h with hh | hh
      · subst hh; exact foldl_min_le_init s z
      · exact foldl_min_le_mem s x z hh

theorem init_le_foldl_max (t : List ℚ) : ∀ a : ℚ, a ≤ t.foldl max a := by
  induction t with
  | nil => intro a; simp
  | cons x s ih =>
      intro a
      calc a ≤ max a x := le_max_left _ _
      _ ≤ s.foldl max (max a x) := ih _
      _ = (x :: s).foldl max a := rfl

theorem mem_le_foldl_max (t : List ℚ) : ∀ a z : ℚ, z ∈ t → z ≤ t.foldl max a := by
  induction t with
  | nil => intro a z hz; simp at hz
  | cons x s ih =>
      intro a z hz
      rcases List.mem_cons.mp hz with h | h
      · subst h
        calc z ≤ max a z := le_max_right _ _
        _ ≤ s.foldl max (max a z) := init_le_foldl_max _ _
        _ = (z :: s).foldl max a := rfl
      · exact ih _ _ h

theorem le_listMax_of_mem {z : ℚ} {values : List ℚ} (h : z ∈ values) :
    z ≤ listMax values := by
  cases values with
  | nil => simp at h
  | cons x s =>
      rcases List.mem_cons.mp h with hh | hh
      · subst hh; exact init_le_foldl_max s z
      · exact mem_le_foldl_max s x z hh

theorem foldl_bumpBucket_zero (lo width : ℚ) (bins : ℕ) (values : List ℚ) :
    ∀ (c : ℚ) (rest : List ℚ),
      (∀ z ∈ values, bucketIndex lo width bins z = 0) →
      values.foldl (bumpBucket lo width bins) (c :: rest)
        = (c + values.length) :: rest := by
  induction values with
  | nil => intro c rest _; simp
  | cons z t ih =>
      intro c rest hall
      rw [List.foldl_cons]
      have hz : bucketIndex lo width bins z = 0 := hall z (by simp)
      have hstep : bumpBucket lo width bins (c :: rest) z = (c + 1) :: rest := by
        simp [bumpBucket, hz]
      rw [hstep, ih _ _ fun w hw => hall w (by simp [hw])]
      congr 1
      simp only [List.length_cons]
      push_cast
      ring

/-- C3: whenever `max > min` (and `bins > 0`), the clamp of the computed
floor index sends the maximum sample to the last bucket, index
`bins - 1`; and on the concrete input `[1, 2, 3, 4]` with two bins the
bucketizer yields `min = 1`, `max = 4`, `bucket_limit = [5/2, 4]` and
`bucket = [2, 2]`. -/
theorem histogram_max_lands_in_last_bucket :
    (∀ (bins : ℕ) (values : List ℚ), 0 < bins →
      listMin values < listMax values →
      bucketIndex (listMin values)
          ((listMax values - listMin values) / (bins : ℚ)) bins (listMax values)
        = bins - 1)
    ∧ histogramProto 2 [1, 2, 3, 4] = ⟨1, 4, [5 / 2, 4], [2, 2]⟩ := by
  constructor
  · intro bins values hb hlt
    have hsub : (0 : ℚ) < listMax values - listMin values := by linarith
    have hbq : ((bins : ℚ)) ≠ 0 := Nat.cast_ne_zero.mpr (by omega)
    have hdiv : (listMax values - listMin values)
        / ((listMax values - listMin values) / (bins : ℚ)) = ((bins : ℕ) : ℚ) := by
      field_simp
    unfold bucketIndex
    rw [hdiv, Int.floor_natCast]
    omega
  · simp [histogramProto, listMin, listMax, bumpBucket, bucketIndex, List.range_succ]
    norm_num

theorem histogram_max_lands_in_last_bucket_witness :
    bucketIndex (listMin [1, 4]) ((listMax [1, 4] - listMin [1, 4]) / ((2 : ℕ) : ℚ))
        2 (listMax [1, 4]) = 2 - 1 :=
  histogram_max_lands_in_last_bucket.1 2 [1, 4] (by decide) (by decide)

/-- C4: when every sample equals the minimum (`max = min`, so the bucket
width is zero) every sample is counted in bucket 0; and on the concrete
input `[5]` with one bin the bucketizer yields `min = max = 5`,
`bucket_limit = [5]` and `bucket = [1]`. -/
theorem histogram_zero_width_all_in_bucket_zero :
    (∀ (bins : ℕ) (values : List ℚ), values ≠ [] → 0 < bins →
      listMax values = listMin values →
      (histogramProto bins values).bucket
        = ((values.length : ℚ)) :: List.replicate (bins - 1) 0)
    ∧ histogramProto 1 [5] = ⟨5, 5, [5], [1]⟩ := by
  constructor
  · intro bins values hne hb heq
    simp only [histogramProto, if_pos (And.intro hne hb)]
    have hidx : ∀ z ∈ values, bucketIndex (listMin values)
        ((listMax values - listMin values) / (bins : ℚ)) bins z = 0 := by
      intro z hz
      have h1 : z ≤ listMin values := heq ▸ le_listMax_of_mem hz
      have hzl : z = listMin values := le_antisymm h1 (listMin_le_of_mem hz)
      unfold bucketIndex
      rw [hzl, sub_self, zero_div, Int.floor_zero]
      omega
    obtain ⟨k, hk⟩ : ∃ k, bins = k + 1 := ⟨bins - 1, by omega⟩
    subst hk
    rw [List.replicate_succ, foldl_bumpBucket_zero _ _ _ _ _ _ hidx]
    simp
  · simp [histogramProto, listMin, listMax, bumpBucket, bucketIndex]

theorem histogram_zero_width_all_in_bucket_zero_witness :
    (histogramProto 3 [7, 7]).bucket
      = ((([7, 7] : List ℚ).length : ℚ)) :: List.replicate (3 - 1) 0 :=
  histogram_zero_width_all_in_bucket_zero.1 3 [7, 7] (by simp) (by decide) (by decide)

/-- C6: for a non-empty sample list and `bins > 0` the bucket limits
have length `bins`, entry `i` is `min + (i+1) * bucket_width`, and when
`max > min` the limits are strictly increasing. -/
theorem histogram_bucket_limits_linear (bins : ℕ) (values : List ℚ)
    (hne : values ≠ []) (hb : 0 < bins) :
    (histogramProto bins values).bucket_limit.length = bins ∧
    (∀ i, i < bins →
      (histogramProto bins values).bucket_limit.getD i 0
        = listMin values + ((i + 1 : ℕ) : ℚ)
            * ((listMax values - listMin values) / (bins : ℚ))) ∧
    (listMin values < listMax values →
      (histogramProto bins values).bucket_limit.Pairwise (· < ·)) := by
  simp only [histogramProto, if_pos (And.intro hne hb)]
  refine ⟨by simp, ?_, ?_⟩
  · intro i hi
    rw [List.getD_eq_getElem _ _ (by simpa using hi)]
    simp
  · intro hlt
    have hw : (0 : ℚ) < (listMax values - listMin values) / (bins : ℚ) :=
      div_pos (by linarith) (by exact_mod_cast hb)
    rw [List.pairwise_map]
    refine List.Pairwise.imp ?_ (List.pairwise_lt_range bins)
    intro a b hab
    have hc : ((a + 1 : ℕ) : ℚ) < ((b + 1 : ℕ) : ℚ) := by
      exact_mod_cast Nat.succ_lt_succ hab
    have := mul_lt_mul_of_pos_right hc hw
    linarith

theorem histogram_bucket_limits_linear_witness :
    (histogramProto 2 [1, 3]).bucket_limit.length = 2 ∧
    (∀ i, i < 2 →
      (histogramProto 2 [1, 3]).bucket_limit.getD i 0
        = listMin [1, 3] + ((i + 1 : ℕ) : ℚ)
            * ((listMax [1, 3] - listMin [1, 3]) / ((2 : ℕ) : ℚ))) ∧
    (listMin [1, 3] < listMax [1, 3] →
      (histogramProto 2 [1, 3]).bucket_limit.Pairwise (· < ·)) :=
  histogram_bucket_limits_linear 2 [1, 3] (by simp) (by decide)

theorem recordRead_recordWrite_witness :
    ([1, 2, 3] : List Nat).length < 2 ^ 64 ∧
      recordRead (recordWrite [1, 2, 3]) = .ok ([1, 2, 3], []) :=
  ⟨by decide, recordRead_recordWrite [1, 2, 3] (by decide)⟩

/-- C9: the masked checksum of any byte buffer is exactly
`((c >> 15) | (c << 17)) + 0xa282ead8` reduced modulo `2 ^ 32`, where
`c` is the CRC-32C of the buffer; in particular it fits in an unsigned
32-bit word. -/
theorem mask_eq_spec_formula (d : List Nat) :
    mask d = ((crc32c d >>> 15 ||| crc32c d <<< 17) + 0xa282ead8) % 2 ^ 32
      ∧ mask d < 2 ^ 32 := by
  refine ⟨?_, mask_lt d⟩
  have hsr : crc32c d >>> 15 % 2 ^ 32 = crc32c d >>> 15 := by
    apply Nat.mod_eq_of_lt
    calc crc32c d >>> 15 ≤ crc32c d := by
          rw [Nat.shiftRight_eq_div_pow]; exact Nat.div_le_self _ _
    _ < 2 ^ 32 := crc32c_lt d
  simp only [mask, maskDelta]
  conv_rhs => rw [← Nat.mod_add_mod, lor_mod_two_pow, hsr]

/-! ## Lemmas: writer clock handling -/

/-- C7: `Writer::write_summary` fails with the clock error when the
wall time predates the Unix epoch, and otherwise proceeds, writing one
framed record for the event that carries the wall time in seconds, the
step, and the summary. -/
theorem write_summary_clock (encode : Event → List Nat) (out : List Nat)
    (t : SystemTime) (step : Int) (s : Summary) :
    (t < 0 → write_summary encode out t step s = .error .clockError) ∧
    (0 ≤ t → write_summary encode out t step s
      = .ok (out ++ recordWrite (encode ⟨t, step, some (.summary s), none⟩))) := by
  constructor
  · intro h
    simp [write_summary, time_f64, h]
  · intro h
    simp [write_summary, time_f64, not_lt.mpr h, write_event]

theorem write_summary_clock_witness :
    (write_summary (fun _ => []) [] (-1) 0 ⟨[]⟩ = .error .clockError) ∧
      write_summary (fun _ => []) [] 0 0 ⟨[]⟩ = .ok ([] ++ recordWrite []) :=
  ⟨(write_summary_clock (fun _ => []) [] (-1) 0 ⟨[]⟩).1 (by decide),
   (write_summary_clock (fun _ => []) [] 0 0 ⟨[]⟩).2 (by decide)⟩

/-! ## Lemmas: text-tensor shape check -/

theorem toI64_eq_of_lt {d : Nat} (h : d < 2 ^ 63) : toI64 d = d := by
  unfold toI64
  omega

theorem foldl_checkedMul_none (l : List Int) :
    l.foldl (fun acc d => acc.bind fun x => i64CheckedMul x d) none = none := by
  induction l with
  | nil => rfl
  | cons d t ih =>
      rw [List.foldl_cons]
      exact ih

theorem foldl_checkedMul_some (l : List Nat) :
    ∀ acc n : Int, (∀ d ∈ l, d < 2 ^ 63) →
      (l.map toI64).foldl (fun a d => a.bind fun x => i64CheckedMul x d) (some acc)
        = some n →
      n = acc * l.prod := by
  induction l with
  | nil =>
      intro acc n _ h
      simp only [List.map_nil, List.foldl_nil, Option.some.injEq] at h
      simp [← h]
  | cons d t ih =>
      intro acc n hd h
      rw [List.map_cons, List.foldl_cons, Option.some_bind] at h
      have hd0 : toI64 d = (d : Int) := toI64_eq_of_lt (hd d (by simp))
      by_cases hc : -(2 ^ 63) ≤ acc * toI64 d ∧ acc * toI64 d < 2 ^ 63
      · rw [i64CheckedMul, if_pos hc] at h
        have := ih _ _ (fun x hx => hd x (by simp [hx])) h
        rw [this, hd0, List.prod_cons]
        push_cast
        ring
      · rw [i64CheckedMul, if_neg hc, foldl_checkedMul_none] at h
        exact absurd h (by simp)

/-- C8: with the debug-style check enabled, `text_ndarray` panics
(modelled as `Except.error`) whenever the product of the shape
dimensions differs from the number of strings, and with the check
disabled it never panics (the check runs only in debug-style builds). -/
theorem text_ndarray_shape_check (b : SummaryBuilder) (tag : String)
    (text : List Bytes) (shape : List Nat)
    (hd : ∀ d ∈ shape, d < 2 ^ 63) (hl : text.length < 2 ^ 63)
    (hne : shape.prod ≠ text.length) :
    (∃ msg, SummaryBuilder.text_ndarray true b tag text shape
      = .error msg) ∧
    ∃ b2, SummaryBuilder.text_ndarray false b tag text shape = .ok b2 := by
  constructor
  · unfold SummaryBuilder.text_ndarray SummaryBuilder.text_ndarray_mono
    rcases hdp : dimProduct shape with _ | n
    · exact ⟨"bad shape: dimension product overflowed", by simp [hdp]⟩
    · have hn : n = shape.prod := by
        have := foldl_checkedMul_some shape 1 n hd (by rw [← dimProduct]; exact hdp)
        simpa using this
      have hneq : n ≠ toI64 text.length := by
        rw [hn, toI64_eq_of_lt hl]
        exact_mod_cast hne
      refine ⟨"bad shape: dimension product is " ++ toString n
        ++ " but vector has length " ++ toString text.length, ?_⟩
      simp [hdp, hneq]
  · unfold SummaryBuilder.text_ndarray SummaryBuilder.text_ndarray_mono
    exact ⟨_, rfl⟩

theorem text_ndarray_shape_check_witness :
    (∃ msg, SummaryBuilder.text_ndarray true ⟨⟨[]⟩⟩ "tag" [[65]] [2]
      = .error msg) ∧
    ∃ b2, SummaryBuilder.text_ndarray false ⟨⟨[]⟩⟩ "tag" [[65]] [2] = .ok b2 :=
  text_ndarray_shape_check ⟨⟨[]⟩⟩ "tag" [[65]] [2]
    (by decide) (by decide) (by decide)

/-- C8 counterexample: with the debug check enabled, the wrapping
`usize as i64` casts make the checked product of the realizable shape
`[2^64 - 1, 2^64 - 1]` come out as `(-1) * (-1) = 1`, which equals the
length of a one-string vector, so the call returns successfully — no
panic — although the mathematical product of the shape differs from the
length. -/
theorem text_ndarray_shape_check_counterexample :
    ([2 ^ 64 - 1, 2 ^ 64 - 1] : List Nat).prod ≠ ([[65]] : List Bytes).length ∧
    ∃ b2, SummaryBuilder.text_ndarray true ⟨⟨[]⟩⟩ "tag" [[65]]
        [2 ^ 64 - 1, 2 ^ 64 - 1] = .ok b2 :=
  ⟨by decide, ⟨_, rfl⟩⟩

/-! ## Lemmas: the histogram loop on extended `f64` -/

theorem ele_zero_le_binsSubOne (bins : ℕ) (hb : 0 < bins) :
    ele (.fin 0) (.fin ((bins : ℚ) - 1)) = true := by
  have h1 : (1 : ℚ) ≤ (bins : ℚ) := by exact_mod_cast hb
  simp only [ele, decide_eq_true_eq]
  linarith

theorem etoUsize_fin_lt (a : ℚ) (bins : ℕ) (hb : 0 < bins)
    (ha : a ≤ (bins : ℚ) - 1) : etoUsize (.fin a) < bins := by
  have h2 : (⌊(bins : ℚ) - 1⌋ : ℤ) = (bins : ℤ) - 1 := by
    rw [show ((bins : ℚ) - 1) = (((bins : ℤ) - 1 : ℤ) : ℚ) by push_cast; ring,
      Int.floor_intCast]
  have h1 : ⌊a⌋ ≤ (bins : ℤ) - 1 := h2 ▸ Int.floor_le_floor ha
  simp only [etoUsize]
  omega

theorem bucketIndexE_ok (lo width : EF64) (bins : ℕ) (z : EF64) (hb : 0 < bins) :
    ∃ idx, bucketIndexE lo width bins z = .ok idx ∧ idx < bins := by
  unfold bucketIndexE eclamp
  rw [if_pos (ele_zero_le_binsSubOne bins hb)]
  cases hfl : efloor (ediv (esub z lo) width) with
  | nan s =>
      refine ⟨0, ?_, hb⟩
      simp [elt, etoUsize]
  | ninf =>
      refine ⟨0, ?_, hb⟩
      simp [elt, etoUsize]
  | pinf =>
      refine ⟨etoUsize (.fin ((bins : ℚ) - 1)), ?_,
        etoUsize_fin_lt _ _ hb (le_refl _)⟩
      simp [elt]
  | fin a =>
      by_cases ha0 : a < 0
      · refine ⟨0, ?_, hb⟩
        simp [elt, ha0, etoUsize]
      · by_cases ha1 : (bins : ℚ) - 1 < a
        · refine ⟨etoUsize (.fin ((bins : ℚ) - 1)), ?_,
            etoUsize_fin_lt _ _ hb (le_refl _)⟩
          simp [elt, ha0, ha1]
        · refine ⟨etoUsize (.fin a), ?_,
            etoUsize_fin_lt _ _ hb (by linarith [not_lt.mp ha1])⟩
          simp [elt, ha0, ha1]

theorem foldl_bumpBucketE_ok (lo width : EF64) (bins : ℕ) (hb : 0 < bins)
    (values : List EF64) :
    ∀ acc : List ℚ, acc.length = bins →
      ∃ counts,
        values.foldl
            (fun (a : Except String (List ℚ)) z =>
              a.bind fun l => bumpBucketE lo width bins l z) (.ok acc)
          = .ok counts
        ∧ counts.length = bins ∧ counts.sum = acc.sum + values.length := by
  induction values with
  | nil => intro acc hl; exact ⟨acc, rfl, hl, by simp⟩
  | cons z t ih =>
      intro acc hl
      obtain ⟨idx, hidx, hlt⟩ := bucketIndexE_ok lo width bins z hb
      have hstep : bumpBucketE lo width bins acc z
          = .ok (acc.set idx (acc.getD idx 0 + 1)) := by
        unfold bumpBucketE
        rw [hidx]
        exact if_pos (show idx < acc.length by rw [hl]; exact hlt)
      obtain ⟨counts, hc, hlen, hsum⟩ :=
        ih (acc.set idx (acc.getD idx 0 + 1)) (by rw [List.length_set, hl])
      refine ⟨counts, ?_, hlen, ?_⟩
      · rw [List.foldl_cons,
          show ((Except.ok acc).bind fun l => bumpBucketE lo width bins l z)
            = bumpBucketE lo width bins acc z from rfl,
          hstep]
        exact hc
      · rw [hsum, sum_set_getD_add_one _ _ (by rw [hl]; exact hlt)]
        simp only [List.length_cons]
        push_cast
        ring

/-- C10: over the extended `f64` model (NaN and infinities included),
the bucketizer is total and never panics for `bins > 0`: a NaN index
(for example from `0/0` or `inf/inf`) clamps to NaN and casts to bucket
0, every bucket index that is used is in `[0, bins - 1]`, and every
sample — finite or not — increments exactly one bucket, so the counts
sum to the number of samples. -/
theorem histogramE_never_panics_counts_all (bins : ℕ) (values : List EF64)
    (hb : 0 < bins) :
    (∀ (lo width z : EF64) (s : Bool),
      efloor (ediv (esub z lo) width) = .nan s →
      bucketIndexE lo width bins z = .ok 0) ∧
    (∀ lo width z : EF64,
      ∃ idx, bucketIndexE lo width bins z = .ok idx ∧ idx < bins) ∧
    ∃ h, histogramProtoE bins values = .ok h ∧
      h.bucket.sum = (values.length : ℚ) := by
  refine ⟨?_, fun lo width z => bucketIndexE_ok lo width bins z hb, ?_⟩
  · intro lo width z s hnan
    unfold bucketIndexE eclamp
    rw [hnan, if_pos (ele_zero_le_binsSubOne bins hb)]
    simp [elt, etoUsize]
  · by_cases hv : values = []
    · subst hv
      exact ⟨{}, by simp [histogramProtoE], by simp⟩
    · simp only [histogramProtoE, if_pos (And.intro hv hb)]
      obtain ⟨counts, hc, hlen, hsum⟩ :=
        foldl_bumpBucketE_ok (listMinE values)
          (ediv (esub (listMaxE values) (listMinE values)) (.fin (bins : ℚ)))
          bins hb values (List.replicate bins 0) (List.length_replicate _ _)
      rw [hc]
      refine ⟨_, rfl, ?_⟩
      simpa using hsum

theorem histogramE_never_panics_counts_all_witness :
    (∀ (lo width z : EF64) (s : Bool),
      efloor (ediv (esub z lo) width) = .nan s →
      bucketIndexE lo width 2 z = .ok 0) ∧
    (∀ lo width z : EF64,
      ∃ idx, bucketIndexE lo width 2 z = .ok idx ∧ idx < 2) ∧
    ∃ h, histogramProtoE 2 [.fin 1, .pinf, .ninf, .nan true, .nan false]
        = .ok h ∧
      h.bucket.sum
        = (([EF64.fin 1, .pinf, .ninf, .nan true, .nan false].length : ℕ) : ℚ) :=
  histogramE_never_panics_counts_all 2
    [.fin 1, .pinf, .ninf, .nan true, .nan false] (by decide)

end TBW
